import Mathlib

set_option maxRecDepth 8000

/-! Verification of the tiling-patterns generator (`src/main.rs`) against its
design specification.

Modelling conventions for the shallow embedding:

* `f64`/`f32` values are idealized as rationals (`ℚ`); every arithmetic
  operation the program performs on them (addition, subtraction,
  multiplication, squaring, comparison) is embedded exactly.
* `u32` quantities are `ℕ` with an explicit `% 2^32` at each operation where
  Rust release-profile semantics (overflow-checks off) wrap: the squaring
  `minimum_distance * minimum_distance`, the doubling `minimum_distance * 2`,
  and the subtraction `distance.maximum - distance.minimum`.
* randomness is an explicit oracle: a stream `ℕ → Draw` of rng rounds.  One
  `Draw` bundles what `random_point_at_certain_distance` derives from its two
  `rng.gen::<f64>()` calls: `dx = cos angle` and `dy = sin angle` for the
  uniformly drawn angle, and the fraction `u ∈ [0,1)` scaling the radial
  span.  The real generator only produces unit vectors `(dx, dy)` and
  fractions in `[0,1)`; theorems that need those facts take them as
  hypotheses.
* the two loops without a termination guarantee (the rejection recursion in
  `random_point_at_certain_distance` and the frontier loop of
  `generate_anchor_points`) take explicit fuel and answer `none` when it is
  exhausted, making non-termination observable as `none` for every fuel.
* `rng.gen_range(a..b)` on floats panics when the range is empty
  (`a < b` fails); a panic is embedded as `none`.
* thread spawn/join of pure closures is embedded by the pure value of the
  closure; the merge replays the joins in the program's deterministic order.
-/

def U32SIZE : ℕ := 2 ^ 32

/-- Wrapping `u32` subtraction `a - b` for operands already reduced mod `2^32`. -/
def u32Sub (a b : ℕ) : ℕ := (a % U32SIZE + (U32SIZE - b % U32SIZE)) % U32SIZE

/-- `Point` (main.rs:101): a planar coordinate pair. -/
structure Point where
  x : ℚ
  y : ℚ
deriving DecidableEq

/-- An 8-bit RGBA color value. -/
structure Rgba where
  r : ℕ
  g : ℕ
  b : ℕ
  a : ℕ
deriving DecidableEq

/-- `Anchor` (main.rs:107): a seed point with its color. -/
structure Anchor where
  point : Point
  color : Rgba
deriving DecidableEq

/-- `Bounds` (main.rs:112). -/
structure Bounds where
  width : ℕ
  height : ℕ

/-- `Distance` (main.rs:117): the radial sampling range. -/
structure Distance where
  minimum : ℕ
  maximum : ℕ

/-- A color in hue/saturation/lightness representation (`palette::Hsl`). -/
structure Hsl where
  hue : ℚ
  saturation : ℚ
  lightness : ℚ
deriving DecidableEq

/-- A linear-float sRGB color (`palette::Srgb<f32>`). -/
structure Srgb where
  red : ℚ
  green : ℚ
  blue : ℚ

/-- One rng round of the point sampler: the unit direction `(dx, dy)` obtained
from the drawn angle, and the distance fraction `u`. -/
structure Draw where
  dx : ℚ
  dy : ℚ
  u : ℚ
deriving DecidableEq

/-- `Point::squared_distance_from` (main.rs:123). -/
def squared_distance_from (p q : Point) : ℚ :=
  (p.x - q.x) ^ 2 + (p.y - q.y) ^ 2

/-- `generate_color_like` (main.rs:14), at the Hsl level: the conversions
`Hsl::from_color` / `Rgb::from_color` of the external palette crate frame this
function, which perturbs only the lightness.  The draw `u ∈ [0,1)` is the
uniform fraction, so `rng.gen_range(min..max)` yields `min + u * (max - min)`;
on an empty range (`min < max` fails) `gen_range` panics, embedded as `none`. -/
def generate_color_like (base : Hsl) (u : ℚ) : Option Hsl :=
  let min_lightness := base.lightness * 3 / 4
  let max_lightness := base.lightness * 4 / 3
  if min_lightness < max_lightness then
    some ⟨base.hue, base.saturation, min_lightness + u * (max_lightness - min_lightness)⟩
  else none

/-- Rust `as u8` cast from a float: saturating at the bounds, truncating toward
zero in between. -/
def f32_as_u8 (q : ℚ) : ℕ :=
  if q < 0 then 0 else if 255 < q then 255 else q.floor.toNat

/-- `RgbaExtensions::from_srgb` (main.rs:31). -/
def from_srgb (input : Srgb) : Rgba :=
  ⟨f32_as_u8 (input.red * 255), f32_as_u8 (input.green * 255),
    f32_as_u8 (input.blue * 255), 255⟩

/-- Loop body of `Point::closest_anchor` (main.rs:138-154): the running
`closest_anchor : Option<(Anchor, f64)>` accumulator, updated anchor by anchor
in list order. -/
def closest_anchor_go (p : Point) (t : ℚ) :
    List Anchor → Option (Anchor × ℚ) → Option (Anchor × ℚ)
  | [], best => best
  | anchor :: rest, best =>
    let dist := squared_distance_from p anchor.point
    let best' :=
      if dist < t then some (anchor, dist)
      else
        match best with
        | none => some (anchor, dist)
        | some (b, min_dist) =>
          if min_dist > dist then some (anchor, dist) else some (b, min_dist)
    closest_anchor_go p t rest best'

/-- `Point::closest_anchor` (main.rs:130): `t = ((m as f64) / 2)^2`. -/
def closest_anchor (p : Point) (anchors : List Anchor) (m : ℕ) : Option Anchor :=
  (closest_anchor_go p (((m : ℚ) / 2) ^ 2) anchors none).map Prod.fst

/-- Spec-worded per-anchor rule of the rasterizer scan (spec §4.4): inside the
inner threshold adopt unconditionally; otherwise adopt exactly when strictly
closer than the current best. -/
def closest_anchor_spec_step (p : Point) (t : ℚ) (best : Option (Anchor × ℚ))
    (anchor : Anchor) : Option (Anchor × ℚ) :=
  let dist := squared_distance_from p anchor.point
  if dist < t then some (anchor, dist)
  else
    match best with
    | none => some (anchor, dist)
    | some (_, min_dist) => if dist < min_dist then some (anchor, dist) else best

/-- Spec-worded scan: fold the per-anchor rule over the anchors in generation
order, starting from no current best. -/
def closest_anchor_spec (p : Point) (anchors : List Anchor) (m : ℕ) : Option Anchor :=
  (anchors.foldl (closest_anchor_spec_step p (((m : ℚ) / 2) ^ 2)) none).map Prod.fst

/-- The strict in-bounds test of `random_point_at_certain_distance`
(main.rs:171-172). -/
def strictly_in_bounds (bounds : Bounds) (p : Point) : Prop :=
  0 < p.x ∧ p.x < (bounds.width : ℚ) ∧ 0 < p.y ∧ p.y < (bounds.height : ℚ)

instance (bounds : Bounds) (p : Point) : Decidable (strictly_in_bounds bounds p) := by
  unfold strictly_in_bounds; infer_instance

/-- `Point::random_point_at_certain_distance` (main.rs:159): one rejection
attempt per fuel unit; `i` indexes the next unused rng round. -/
def random_point_at_certain_distance (fuel : ℕ) (ds : ℕ → Draw) (i : ℕ) (self : Point)
    (distance : Distance) (bounds : Bounds) : Option (Point × ℕ) :=
  match fuel with
  | 0 => none
  | fuel + 1 =>
    let d := ds i
    let actual_distance : ℚ :=
      (distance.minimum : ℚ) + d.u * ((u32Sub distance.maximum distance.minimum : ℕ) : ℚ)
    let point : Point := ⟨actual_distance * d.dx + self.x, actual_distance * d.dy + self.y⟩
    if strictly_in_bounds bounds point then some (point, i + 1)
    else random_point_at_certain_distance fuel ds (i + 1) self distance bounds

/-- The `for _ in 0..25` loop of `Point::generate_anchor_candidates`
(main.rs:184-186), generalized over the remaining count. -/
def generate_anchor_candidates_go (rp_fuel : ℕ) (ds : ℕ → Draw) (distance : Distance)
    (bounds : Bounds) (self : Point) : ℕ → ℕ → Option (List Point × ℕ)
  | 0, i => some ([], i)
  | count + 1, i =>
    match random_point_at_certain_distance rp_fuel ds i self distance bounds with
    | none => none
    | some (p, j) =>
      match generate_anchor_candidates_go rp_fuel ds distance bounds self count j with
      | none => none
      | some (ps, k) => some (p :: ps, k)

/-- `Point::generate_anchor_candidates` (main.rs:181): 25 fresh candidates. -/
def generate_anchor_candidates (rp_fuel : ℕ) (ds : ℕ → Draw) (i : ℕ) (self : Point)
    (distance : Distance) (bounds : Bounds) : Option (List Point × ℕ) :=
  generate_anchor_candidates_go rp_fuel ds distance bounds self 25 i

/-- Acceptance test of the frontier loop (main.rs:219-226): a candidate is
valid iff no accepted anchor has squared distance strictly below `sq_min`. -/
def is_valid_anchor (sq_min : ℚ) (final_anchors : List Point) (candidate : Point) : Bool :=
  final_anchors.all fun anchor => ! decide (squared_distance_from anchor candidate < sq_min)

/-- The frontier loop of `generate_anchor_points` (main.rs:213-241): pop the
front candidate, test it against every accepted anchor, and on acceptance
append it and enqueue its 25 fresh candidates. -/
def anchor_loop (rp_fuel : ℕ) (ds : ℕ → Draw) (distance : Distance) (bounds : Bounds)
    (sq_min : ℚ) : ℕ → List Point → List Point → ℕ → Option (List Point)
  | 0, _, _, _ => none
  | _ + 1, [], final_anchors, _ => some final_anchors
  | fuel + 1, candidate :: rest, final_anchors, i =>
    if is_valid_anchor sq_min final_anchors candidate then
      match generate_anchor_candidates rp_fuel ds i candidate distance bounds with
      | none => none
      | some (cs, j) =>
        anchor_loop rp_fuel ds distance bounds sq_min fuel (rest ++ cs)
          (final_anchors ++ [candidate]) j
    else anchor_loop rp_fuel ds distance bounds sq_min fuel rest final_anchors i

/-- `generate_anchor_points` (main.rs:192): the first anchor is
`(u₁ * width, u₂ * height)` for the two seed rng fractions `u₁, u₂`; the
squared minimum distance and the doubled maximum wrap as `u32` products. -/
def generate_anchor_points (fuel rp_fuel : ℕ) (ds : ℕ → Draw) (u₁ u₂ : ℚ)
    (bounds : Bounds) (minimum_distance : ℕ) : Option (List Point) :=
  let squared_minimum_distance : ℕ := minimum_distance * minimum_distance % U32SIZE
  let first_anchor : Point := ⟨u₁ * (bounds.width : ℚ), u₂ * (bounds.height : ℚ)⟩
  let distance : Distance := ⟨minimum_distance, minimum_distance * 2 % U32SIZE⟩
  match generate_anchor_candidates rp_fuel ds 0 first_anchor distance bounds with
  | none => none
  | some (cs, i) =>
    anchor_loop rp_fuel ds distance bounds ((squared_minimum_distance : ℕ) : ℚ)
      fuel cs [first_anchor] i

/-- The x-window filter at the head of `pixel_calculator` (main.rs:256-262). -/
def filtered_anchors (x : ℕ) (anchors : List Anchor) (m : ℕ) : List Anchor :=
  anchors.filter fun anchor =>
    decide ((((x : ℤ) - (m : ℤ) : ℤ) : ℚ) < anchor.point.x) &&
    decide (anchor.point.x < (((x : ℤ) + (m : ℤ) : ℤ) : ℚ))

/-- `pixel_calculator` (main.rs:246): one column of results, `y = 0..h-1` in
order, pixels with no governing anchor omitted. -/
def pixel_calculator (x : ℕ) (image_height : ℕ) (anchors : List Anchor) (m : ℕ) :
    List (Point × Rgba) :=
  let fa := filtered_anchors x anchors m
  (List.range image_height).filterMap fun y =>
    (closest_anchor ⟨(x : ℚ), (y : ℚ)⟩ fa m).map fun anchor =>
      ((⟨(x : ℚ), (y : ℚ)⟩ : Point), anchor.color)

/-- The all-transparent initial pixel of `RgbaImage::new`. -/
def transparent : Rgba := ⟨0, 0, 0, 0⟩

/-- Rust `as u32` cast of an f64 pixel coordinate (always natural-valued here). -/
def rat_as_u32 (q : ℚ) : ℕ := q.floor.toNat

/-- The `img.put_pixel` merge loop (main.rs:322-324): apply the writes in
order to the buffer. -/
def apply_writes (writes : List (Point × Rgba)) (buf : ℕ → ℕ → Rgba) : ℕ → ℕ → Rgba :=
  writes.foldl
    (fun b w => fun px py =>
      if px = rat_as_u32 w.1.x ∧ py = rat_as_u32 w.1.y then w.2 else b px py)
    buf

/-- Band starts `(0..image_width).step_by(10)` (main.rs:304). -/
def band_steps (image_width : ℕ) : List ℕ :=
  (List.range ((image_width + 9) / 10)).map (· * 10)

/-- The columns actually processed, in merge order: bands in order, and within
a band the spawn order `x + step` for `x = 0..9`, stopping at the canvas edge
(main.rs:306-316). -/
def band_cols (image_width : ℕ) : List ℕ :=
  (band_steps image_width).flatMap fun step =>
    ((List.range 10).takeWhile fun x => decide (x + step < image_width)).map (· + step)

/-- Write list of the banded fan-out/join in `generate_voronoi_random_pattern`
(main.rs:304-331): each worker is the pure `pixel_calculator`, and joins are
replayed in spawn order. -/
def banded_writes (w h : ℕ) (anchors : List Anchor) (m : ℕ) : List (Point × Rgba) :=
  (band_steps w).flatMap fun step =>
    ((List.range 10).takeWhile fun x => decide (x + step < w)).flatMap fun x =>
      pixel_calculator (x + step) h anchors m

/-- Spec-worded sequential reference: apply `pixel_calculator` to each column
`x = 0 .. w-1` in order and write its results. -/
def sequential_writes (w h : ℕ) (anchors : List Anchor) (m : ℕ) : List (Point × Rgba) :=
  (List.range w).flatMap fun x => pixel_calculator x h anchors m

/-- Pixel buffer produced by the banded rasterization. -/
def voronoi_raster_banded (w h : ℕ) (anchors : List Anchor) (m : ℕ) : ℕ → ℕ → Rgba :=
  apply_writes (banded_writes w h anchors m) fun _ _ => transparent

/-- Pixel buffer produced by the sequential reference rasterization. -/
def voronoi_raster_sequential (w h : ℕ) (anchors : List Anchor) (m : ℕ) : ℕ → ℕ → Rgba :=
  apply_writes (sequential_writes w h anchors m) fun _ _ => transparent

/-- `let minimum_distance = pattern_size / 2` (main.rs:288), `u32` division. -/
def voronoi_minimum_distance (pattern_size : ℕ) : ℕ := pattern_size / 2

/-- One square tile as handed to `draw_filled_rect_mut` (main.rs:413-415):
`Rect::at(i*size, j*size).of_size(size, size)` with its independent color. -/
structure SqTile where
  i : ℕ
  j : ℕ
  x : ℤ
  y : ℤ
  w : ℕ
  h : ℕ
  color : Rgba

/-- The tile-count bound `f32::ceil(a as f32 / s as f32) as u32` of
`generate_square_pattern`, idealized to the exact ceiling for positive `s`. -/
def ceil_div (a s : ℕ) : ℕ := (a + s - 1) / s

/-- Tiles drawn by `generate_square_pattern` (main.rs:410-417), in loop order
(outer `i` over columns, inner `j` over rows); `col i j` is the independent
color draw of tile `(i, j)`. -/
def square_tiles (image_width image_height pattern_size : ℕ) (col : ℕ → ℕ → Rgba) :
    List SqTile :=
  (List.range (ceil_div image_width pattern_size)).flatMap fun i =>
    (List.range (ceil_div image_height pattern_size)).map fun j =>
      ⟨i, j, ((i * pattern_size : ℕ) : ℤ), ((j * pattern_size : ℕ) : ℤ),
        pattern_size, pattern_size, col i j⟩

/-- Pixel coverage of one tile, clipped to the canvas by the external
`draw_filled_rect_mut` primitive. -/
def tile_covers (W H : ℕ) (t : SqTile) (px py : ℕ) : Prop :=
  t.x ≤ (px : ℤ) ∧ (px : ℤ) < t.x + (t.w : ℤ) ∧
  t.y ≤ (py : ℤ) ∧ (py : ℤ) < t.y + (t.h : ℤ) ∧ px < W ∧ py < H

instance (W H : ℕ) (t : SqTile) (px py : ℕ) : Decidable (tile_covers W H t px py) := by
  unfold tile_covers; infer_instance

/-- The external `draw_filled_rect_mut` collaborator: fill the clipped
rectangle of `t` over the buffer. -/
def draw_filled_rect (W H : ℕ) (t : SqTile) (buf : ℕ → ℕ → Rgba) : ℕ → ℕ → Rgba :=
  fun px py => if tile_covers W H t px py then t.color else buf px py

/-- `generate_square_pattern` (main.rs:402): draw every tile over the fresh
transparent canvas. -/
def generate_square_pattern (w h s : ℕ) (col : ℕ → ℕ → Rgba) : ℕ → ℕ → Rgba :=
  (square_tiles w h s col).foldl (fun b t => draw_filled_rect w h t b) fun _ _ => transparent

/-- Concrete rng stream for the overflow run of `generate_anchor_points` with
`minimum_distance = 65537`: rounds 0 and 1 aim the first two seed candidates,
rounds 2-24 park the rest next to the first acceptance, rounds 25-49 and 50-74
send every later candidate back onto the seed. -/
def dsOver : ℕ → Draw := fun n =>
  if n = 0 then ⟨1, 0, 0⟩
  else if n = 1 then ⟨3 / 5, 4 / 5, 0⟩
  else if n < 25 then ⟨1, 0, 100 / 65537⟩
  else if n < 50 then ⟨-1, 0, 0⟩
  else ⟨-3 / 5, -4 / 5, 0⟩

/-- Seed anchor of the overflow run. -/
def sOver : Point := ⟨200000, 200000⟩

/-- First accepted candidate of the overflow run. -/
def c1Over : Point := ⟨265537, 200000⟩

/-- Second accepted candidate of the overflow run; its distance to `c1Over` is
below 65537. -/
def c2Over : Point := ⟨200000 + 196611 / 5, 200000 + 262148 / 5⟩

/-- Parking spot of the 23 unused seed candidates in the overflow run: 100
to the right of `c1Over`, so each is rejected against it. -/
def crOver : Point := ⟨265637, 200000⟩

/-- Degenerate rng stream: every candidate lands on its own source. -/
def dsZero : ℕ → Draw := fun _ => ⟨0, 0, 0⟩

/-- Degenerate rng stream used for the zero-minimum-distance run. -/
def dsZeroTen : ℕ → Draw := fun _ => ⟨0, 0, 0⟩

/-- Unit-direction rng stream for the candidate-generation run. -/
def dsDiag : ℕ → Draw := fun _ => ⟨3 / 5, 4 / 5, 0⟩

/-! Theorems.  Helper lemmas are shared; each claim has exactly one named
theorem, plus a named witness or counterexample where required. -/

theorem closest_anchor_spec_step_eq (p : Point) (t : ℚ) (best : Option (Anchor × ℚ))
    (anchor : Anchor) :
    closest_anchor_spec_step p t best anchor =
      (if squared_distance_from p anchor.point < t then
        some (anchor, squared_distance_from p anchor.point)
      else
        match best with
        | none => some (anchor, squared_distance_from p anchor.point)
        | some (b, min_dist) =>
          if min_dist > squared_distance_from p anchor.point then
            some (anchor, squared_distance_from p anchor.point)
          else some (b, min_dist)) := by
  unfold closest_anchor_spec_step
  cases best with
  | none => rfl
  | some b => rfl

theorem closest_anchor_go_cons (p : Point) (t : ℚ) (a : Anchor) (rest : List Anchor)
    (best : Option (Anchor × ℚ)) :
    closest_anchor_go p t (a :: rest) best =
      closest_anchor_go p t rest
        (if squared_distance_from p a.point < t then some (a, squared_distance_from p a.point)
        else
          match best with
          | none => some (a, squared_distance_from p a.point)
          | some (b, min_dist) =>
            if min_dist > squared_distance_from p a.point then
              some (a, squared_distance_from p a.point)
            else some (b, min_dist)) := rfl

theorem closest_anchor_go_eq_foldl (p : Point) (t : ℚ) :
    ∀ (l : List Anchor) (best : Option (Anchor × ℚ)),
      closest_anchor_go p t l best = l.foldl (closest_anchor_spec_step p t) best := by
  intro l
  induction l with
  | nil => intro best; rfl
  | cons a rest ih =>
    intro best
    rw [List.foldl_cons, ← ih, closest_anchor_spec_step_eq]
    rfl

theorem closest_anchor_go_isSome (p : Point) (t : ℚ) :
    ∀ (l : List Anchor) (best : Option (Anchor × ℚ)),
      l ≠ [] ∨ best.isSome → (closest_anchor_go p t l best).isSome := by
  intro l
  induction l with
  | nil =>
    intro best h
    rcases h with h | h
    · exact absurd rfl h
    · exact h
  | cons a rest ih =>
    intro best _
    show (closest_anchor_go p t rest _).isSome
    apply ih
    right
    split
    · rfl
    · split
      · rfl
      · split <;> rfl

/-- C2: `closest_anchor` scans the anchors in list order keeping a current
best; an anchor whose squared distance to the pixel is strictly below
`(minimumDistance/2)^2` becomes the current best unconditionally, otherwise an
anchor becomes the current best exactly when it is strictly closer than the
current best; and on a non-empty anchor list a result is always produced.
Stated as equality with the spec-worded fold `closest_anchor_spec`. -/
theorem closest_anchor_scan_spec (p : Point) (anchors : List Anchor) (m : ℕ)
    (hne : anchors ≠ []) :
    closest_anchor p anchors m = closest_anchor_spec p anchors m ∧
    (closest_anchor p anchors m).isSome := by
  constructor
  · unfold closest_anchor closest_anchor_spec
    rw [closest_anchor_go_eq_foldl]
  · unfold closest_anchor
    cases ho : closest_anchor_go p (((m : ℚ) / 2) ^ 2) anchors none with
    | none =>
      have hs := closest_anchor_go_isSome p (((m : ℚ) / 2) ^ 2) anchors none (Or.inl hne)
      rw [ho] at hs
      exact absurd hs (by simp)
    | some v => rfl

/-- Witness for C2 at a concrete pixel and singleton anchor list. -/
theorem closest_anchor_scan_spec_witness :
    (closest_anchor ⟨0, 0⟩ [⟨⟨1, 1⟩, transparent⟩] 5).isSome :=
  (closest_anchor_scan_spec ⟨0, 0⟩ [⟨⟨1, 1⟩, transparent⟩] 5 (List.cons_ne_nil _ _)).2

/-- C3 counterexample: a pixel at the origin and two anchors at distances 1
and 2, both strictly inside the inner threshold `(10/2)^2 = 25`.  The scan
returns the second anchor of the list, not the first, even though the first is
also the geometrically nearer one. -/
theorem closest_anchor_inner_first_refuted :
    closest_anchor ⟨0, 0⟩ [⟨⟨1, 0⟩, ⟨255, 0, 0, 255⟩⟩, ⟨⟨2, 0⟩, ⟨0, 0, 255, 255⟩⟩] 10 =
      some ⟨⟨2, 0⟩, ⟨0, 0, 255, 255⟩⟩ ∧
    (⟨⟨2, 0⟩, ⟨0, 0, 255, 255⟩⟩ : Anchor) ≠ ⟨⟨1, 0⟩, ⟨255, 0, 0, 255⟩⟩ ∧
    squared_distance_from ⟨0, 0⟩ ⟨1, 0⟩ < ((10 : ℚ) / 2) ^ 2 ∧
    squared_distance_from ⟨0, 0⟩ ⟨2, 0⟩ < ((10 : ℚ) / 2) ^ 2 ∧
    squared_distance_from ⟨0, 0⟩ ⟨1, 0⟩ < squared_distance_from ⟨0, 0⟩ ⟨2, 0⟩ := by
  refine ⟨?_, ?_, ?_, ?_, ?_⟩
  · norm_num [closest_anchor, closest_anchor_go, squared_distance_from]
  · simp [Anchor.mk.injEq, Point.mk.injEq]
  · norm_num [squared_distance_from]
  · norm_num [squared_distance_from]
  · norm_num [squared_distance_from]

/-- C3 amended: with exactly two anchors whose squared distances to the pixel
are both strictly below `(minimumDistance/2)^2`, `closest_anchor` returns the
last anchor in list order (each inner-threshold anchor overwrites the current
best), regardless of which of the two is geometrically nearer. -/
theorem closest_anchor_inner_pair_last (p : Point) (a₁ a₂ : Anchor) (m : ℕ)
    (h1 : squared_distance_from p a₁.point < ((m : ℚ) / 2) ^ 2)
    (h2 : squared_distance_from p a₂.point < ((m : ℚ) / 2) ^ 2) :
    closest_anchor p [a₁, a₂] m = some a₂ := by
  unfold closest_anchor
  rw [closest_anchor_go_cons, if_pos h1, closest_anchor_go_cons, if_pos h2]
  rfl

/-- Witness for C3's amended theorem. -/
theorem closest_anchor_inner_pair_last_witness :
    closest_anchor ⟨0, 0⟩ [⟨⟨3, 0⟩, transparent⟩, ⟨⟨0, 3⟩, transparent⟩] 10 =
      some ⟨⟨0, 3⟩, transparent⟩ :=
  closest_anchor_inner_pair_last ⟨0, 0⟩ ⟨⟨3, 0⟩, transparent⟩ ⟨⟨0, 3⟩, transparent⟩ 10
    (by norm_num [squared_distance_from]) (by norm_num [squared_distance_from])

/-- C5 amended: for every base color with lightness `L > 0` and uniform
fraction `u ∈ [0,1)`, `generate_color_like` keeps hue and saturation, and its
lightness is the affine image `0.75L + u * ((4/3)L - 0.75L)` of the uniform
draw, hence lies in `[0.75·L, (4/3)·L]`; composed with any Hsl-to-sRGB
conversion, `from_srgb` yields alpha 255 (full opacity).  At `L = 0` the
function does not return a color at all; see the counterexample. -/
theorem generate_color_like_variation (base : Hsl) (u : ℚ) (conv : Hsl → Srgb)
    (hL : 0 < base.lightness) (hu0 : 0 ≤ u) (hu1 : u < 1) :
    generate_color_like base u =
      some ⟨base.hue, base.saturation,
        base.lightness * 3 / 4 + u * (base.lightness * 4 / 3 - base.lightness * 3 / 4)⟩ ∧
    base.lightness * 3 / 4 ≤
      base.lightness * 3 / 4 + u * (base.lightness * 4 / 3 - base.lightness * 3 / 4) ∧
    base.lightness * 3 / 4 + u * (base.lightness * 4 / 3 - base.lightness * 3 / 4) ≤
      base.lightness * 4 / 3 ∧
    (from_srgb (conv ⟨base.hue, base.saturation,
      base.lightness * 3 / 4 + u * (base.lightness * 4 / 3 - base.lightness * 3 / 4)⟩)).a =
      255 := by
  have hlt : base.lightness * 3 / 4 < base.lightness * 4 / 3 := by nlinarith
  refine ⟨?_, ?_, ?_, rfl⟩
  · unfold generate_color_like
    rw [if_pos hlt]
  · nlinarith
  · nlinarith

/-- Witness for C5's amended theorem at a concrete mid-lightness color. -/
theorem generate_color_like_variation_witness :
    generate_color_like ⟨120, 1 / 2, 1 / 2⟩ (1 / 2) =
      some ⟨120, 1 / 2,
        (1 : ℚ) / 2 * 3 / 4 + 1 / 2 * ((1 : ℚ) / 2 * 4 / 3 - (1 : ℚ) / 2 * 3 / 4)⟩ :=
  (generate_color_like_variation ⟨120, 1 / 2, 1 / 2⟩ (1 / 2) (fun _ => ⟨0, 0, 0⟩)
    (by norm_num) (by norm_num) (by norm_num)).1

/-- C5 counterexample: at a base color of lightness 0 the claim's universal
quantification fails; `generate_color_like` aborts in `gen_range` (empty
range) and returns no color. -/
theorem generate_color_like_total_refuted :
    generate_color_like ⟨0, 0, 0⟩ (1 / 2) = none := by
  norm_num [generate_color_like]

/-- C6 counterexample: at lightness 0 the function does not return its input
unchanged; the `gen_range` call panics on the empty range `0.0..0.0`,
embedded as `none`. -/
theorem generate_color_like_zero_unchanged_refuted :
    generate_color_like ⟨1, 1, 0⟩ (1 / 4) = none ∧
    generate_color_like ⟨1, 1, 0⟩ (1 / 4) ≠ some ⟨1, 1, 0⟩ := by
  have h : generate_color_like ⟨1, 1, 0⟩ (1 / 4) = none := by
    norm_num [generate_color_like]
  exact ⟨h, by rw [h]; exact fun hc => Option.noConfusion hc⟩

/-- C6 amended: for every base color whose lightness is 0 the sampled
lightness range collapses to the empty range `0.0..0.0`, and
`generate_color_like` panics inside `rng.gen_range` instead of returning. -/
theorem generate_color_like_zero_lightness (hue sat u : ℚ) :
    generate_color_like ⟨hue, sat, 0⟩ u = none := by
  norm_num [generate_color_like]

theorem u32Sub_double (m : ℕ) (hm : m < U32SIZE) : u32Sub (m * 2 % U32SIZE) m = m := by
  have h32 : U32SIZE = 4294967296 := by norm_num [U32SIZE]
  rw [h32] at hm
  unfold u32Sub
  rw [h32]
  omega

theorem random_point_spec (ds : ℕ → Draw) (self : Point) (dist : Distance) (b : Bounds)
    (hmin : dist.minimum < U32SIZE) (hmax : dist.maximum = dist.minimum * 2 % U32SIZE)
    (hdir : ∀ n, (ds n).dx ^ 2 + (ds n).dy ^ 2 = 1)
    (hu : ∀ n, 0 ≤ (ds n).u ∧ (ds n).u < 1) :
    ∀ (fuel i : ℕ) (q : Point) (j : ℕ),
      random_point_at_certain_distance fuel ds i self dist b = some (q, j) →
      strictly_in_bounds b q ∧
      ((dist.minimum : ℚ)) ^ 2 ≤ squared_distance_from self q ∧
      squared_distance_from self q ≤ (2 * (dist.minimum : ℚ)) ^ 2 := by
  intro fuel
  induction fuel with
  | zero =>
    intro i q j h
    exact absurd h (by simp [random_point_at_certain_distance])
  | succ fuel ih =>
    intro i q j h
    simp only [random_point_at_certain_distance] at h
    rw [hmax, u32Sub_double dist.minimum hmin] at h
    split at h
    · rename_i hin
      have hq : q = ⟨((dist.minimum : ℚ) + (ds i).u * (dist.minimum : ℚ)) * (ds i).dx + self.x,
          ((dist.minimum : ℚ) + (ds i).u * (dist.minimum : ℚ)) * (ds i).dy + self.y⟩ := by
        cases h
        rfl
      subst hq
      refine ⟨hin, ?_, ?_⟩
      all_goals
        have hM : (0 : ℚ) ≤ (dist.minimum : ℚ) := Nat.cast_nonneg _
        have hu0 := (hu i).1
        have hu1 := (hu i).2
        have hsq : squared_distance_from self
            ⟨((dist.minimum : ℚ) + (ds i).u * (dist.minimum : ℚ)) * (ds i).dx + self.x,
              ((dist.minimum : ℚ) + (ds i).u * (dist.minimum : ℚ)) * (ds i).dy + self.y⟩ =
            ((dist.minimum : ℚ) + (ds i).u * (dist.minimum : ℚ)) ^ 2 *
              ((ds i).dx ^ 2 + (ds i).dy ^ 2) := by
          unfold squared_distance_from
          ring
        rw [hsq, hdir i, mul_one]
        nlinarith [sq_nonneg ((dist.minimum : ℚ)), sq_nonneg ((ds i).u),
          mul_nonneg hM hu0, mul_nonneg (mul_nonneg hM hM) hu0]
    · exact ih (i + 1) q j h

theorem generate_anchor_candidates_go_length (rp_fuel : ℕ) (ds : ℕ → Draw)
    (dist : Distance) (b : Bounds) (self : Point) :
    ∀ (count i : ℕ) (cs : List Point) (j : ℕ),
      generate_anchor_candidates_go rp_fuel ds dist b self count i = some (cs, j) →
      cs.length = count := by
  intro count
  induction count with
  | zero =>
    intro i cs j h
    simp only [generate_anchor_candidates_go, Option.some.injEq, Prod.mk.injEq] at h
    rw [← h.1]
    rfl
  | succ count ih =>
    intro i cs j h
    simp only [generate_anchor_candidates_go] at h
    split at h
    · exact absurd h (by simp)
    · rename_i p j' hr
      split at h
      · exact absurd h (by simp)
      · rename_i ps k hg
        simp only [Option.some.injEq, Prod.mk.injEq] at h
        rw [← h.1]
        simp [ih j' ps k hg]

theorem generate_anchor_candidates_go_mem (rp_fuel : ℕ) (ds : ℕ → Draw)
    (dist : Distance) (b : Bounds) (self : Point)
    (hmin : dist.minimum < U32SIZE) (hmax : dist.maximum = dist.minimum * 2 % U32SIZE)
    (hdir : ∀ n, (ds n).dx ^ 2 + (ds n).dy ^ 2 = 1)
    (hu : ∀ n, 0 ≤ (ds n).u ∧ (ds n).u < 1) :
    ∀ (count i : ℕ) (cs : List Point) (j : ℕ),
      generate_anchor_candidates_go rp_fuel ds dist b self count i = some (cs, j) →
      ∀ c ∈ cs, strictly_in_bounds b c ∧
        ((dist.minimum : ℚ)) ^ 2 ≤ squared_distance_from self c ∧
        squared_distance_from self c ≤ (2 * (dist.minimum : ℚ)) ^ 2 := by
  intro count
  induction count with
  | zero =>
    intro i cs j h
    simp only [generate_anchor_candidates_go, Option.some.injEq, Prod.mk.injEq] at h
    rw [← h.1]
    intro c hc
    exact absurd hc (List.not_mem_nil c)
  | succ count ih =>
    intro i cs j h
    simp only [generate_anchor_candidates_go] at h
    split at h
    · exact absurd h (by simp)
    · rename_i p j' hr
      split at h
      · exact absurd h (by simp)
      · rename_i ps k hg
        simp only [Option.some.injEq, Prod.mk.injEq] at h
        rw [← h.1]
        intro c hc
        rcases List.mem_cons.1 hc with hc | hc
        · subst hc
          exact random_point_spec ds self dist b hmin hmax hdir hu rp_fuel i c j' hr
        · exact ih j' ps k hg c hc

/-- C7: whenever `generate_anchor_candidates` returns (the rejection loop found
an in-bounds point for each of the 25 draw sequences), it returns exactly 25
candidate points; every returned candidate lies strictly inside `Bounds`, and
under the facts the real rng guarantees (unit direction vectors and distance
fractions in `[0,1)`) each candidate's distance from the source point lies in
`[minimumDistance, 2 × minimumDistance]` (stated via squared distances); the
call sites pass `maximum = minimum * 2` (as wrapping `u32`). -/
theorem generate_anchor_candidates_count_bounds (rp_fuel : ℕ) (ds : ℕ → Draw) (i : ℕ)
    (self : Point) (dist : Distance) (b : Bounds) (cs : List Point) (j : ℕ)
    (hmin : dist.minimum < U32SIZE) (hmax : dist.maximum = dist.minimum * 2 % U32SIZE)
    (hdir : ∀ n, (ds n).dx ^ 2 + (ds n).dy ^ 2 = 1)
    (hu : ∀ n, 0 ≤ (ds n).u ∧ (ds n).u < 1)
    (h : generate_anchor_candidates rp_fuel ds i self dist b = some (cs, j)) :
    cs.length = 25 ∧ ∀ c ∈ cs, strictly_in_bounds b c ∧
      ((dist.minimum : ℚ)) ^ 2 ≤ squared_distance_from self c ∧
      squared_distance_from self c ≤ (2 * (dist.minimum : ℚ)) ^ 2 :=
  ⟨generate_anchor_candidates_go_length rp_fuel ds dist b self 25 i cs j h,
    generate_anchor_candidates_go_mem rp_fuel ds dist b self hmin hmax hdir hu 25 i cs j h⟩

/-- Witness for C7: one fuel unit suffices on a diagonal draw stream; the 25
candidates all equal `(28/5, 29/5)` inside the 10 by 10 bounds. -/
theorem generate_anchor_candidates_count_bounds_witness :
    (List.replicate 25 (⟨28 / 5, 29 / 5⟩ : Point)).length = 25 :=
  (generate_anchor_candidates_count_bounds 1 dsDiag 0 ⟨5, 5⟩ ⟨1, 2⟩ ⟨10, 10⟩
    (List.replicate 25 ⟨28 / 5, 29 / 5⟩) 25
    (by norm_num [U32SIZE]) (by norm_num [U32SIZE]) (fun n => by norm_num [dsDiag])
    (fun n => by norm_num [dsDiag])
    (by norm_num [generate_anchor_candidates, generate_anchor_candidates_go,
      random_point_at_certain_distance, dsDiag, strictly_in_bounds, u32Sub, U32SIZE,
      List.replicate])).1

theorem band_cols_eq (w : ℕ) : band_cols w = List.range w := by
  induction w using Nat.strong_induction_on with
  | _ w ih =>
    by_cases hw : w ≤ 10
    · interval_cases w <;> decide
    · push_neg at hw
      have hsteps : band_steps w =
          0 :: (List.range ((w - 10 + 9) / 10)).map (fun k => (k + 1) * 10) := by
        unfold band_steps
        have h1 : (w + 9) / 10 = (w - 10 + 9) / 10 + 1 := by omega
        rw [h1, List.range_succ_eq_map, List.map_cons, List.map_map]
        rfl
      unfold band_cols
      rw [hsteps, List.flatMap_cons, List.flatMap_map]
      have hhead : ((List.range 10).takeWhile fun x => decide (x + 0 < w)).map (· + 0) =
          List.range 10 := by
        rw [List.takeWhile_eq_self_iff.2 ?_]
        · simp
        · intro x hx
          rw [List.mem_range] at hx
          simp only [decide_eq_true_eq]
          omega
      rw [hhead]
      have hbc := ih (w - 10) (by omega)
      unfold band_cols band_steps at hbc
      rw [List.flatMap_map] at hbc
      have htail : (List.range ((w - 10 + 9) / 10)).flatMap (fun k =>
          ((List.range 10).takeWhile fun x => decide (x + (k + 1) * 10 < w)).map
            (· + (k + 1) * 10)) =
          (List.range (w - 10)).map (10 + ·) := by
        rw [← hbc, List.map_flatMap]
        refine congrArg _ (funext fun k => ?_)
        have hp : (fun x => decide (x + (k + 1) * 10 < w)) =
            (fun x => decide (x + k * 10 < w - 10)) :=
          funext fun x => decide_eq_decide.2 (by omega)
        have hf : (· + (k + 1) * 10 : ℕ → ℕ) = ((10 + ·) ∘ (· + k * 10)) :=
          funext fun x => by simp [Function.comp]; omega
        rw [hp, hf, List.map_map]
      rw [htail, ← List.range_add]
      congr 1
      omega

theorem banded_writes_eq_sequential (w h : ℕ) (anchors : List Anchor) (m : ℕ) :
    banded_writes w h anchors m = sequential_writes w h anchors m := by
  have hb : (band_cols w).flatMap (fun x => pixel_calculator x h anchors m) =
      banded_writes w h anchors m := by
    unfold band_cols banded_writes
    rw [List.flatMap_assoc]
    refine congrArg _ (funext fun step => ?_)
    rw [List.flatMap_map]
  rw [← hb, band_cols_eq]
  rfl

/-- C4: for every fixed anchor list the banded fan-out/join rasterization of
`generate_voronoi_random_pattern` produces the same write list and the same
pixel buffer as the sequential loop that applies `pixel_calculator` to each
column `x = 0 .. width-1` in order; the merged column order (bands in order,
then spawn order within each band) is exactly `0, 1, ..., width-1`, so each
column is computed and merged exactly once. -/
theorem banded_raster_eq_sequential (w h : ℕ) (anchors : List Anchor) (m : ℕ) :
    band_cols w = List.range w ∧
    banded_writes w h anchors m = sequential_writes w h anchors m ∧
    voronoi_raster_banded w h anchors m = voronoi_raster_sequential w h anchors m := by
  refine ⟨band_cols_eq w, banded_writes_eq_sequential w h anchors m, ?_⟩
  unfold voronoi_raster_banded voronoi_raster_sequential
  rw [banded_writes_eq_sequential]

theorem apply_writes_not_mem (writes : List (Point × Rgba)) :
    ∀ (buf : ℕ → ℕ → Rgba) (px py : ℕ),
      (∀ pc ∈ writes, rat_as_u32 pc.1.x ≠ px) →
      apply_writes writes buf px py = buf px py := by
  induction writes with
  | nil => intro buf px py _; rfl
  | cons pc rest ih =>
    intro buf px py hne
    show apply_writes rest _ px py = buf px py
    rw [ih _ px py fun q hq => hne q (List.mem_cons_of_mem _ hq)]
    show (if px = rat_as_u32 pc.1.x ∧ py = rat_as_u32 pc.1.y then pc.2 else buf px py) =
      buf px py
    rw [if_neg]
    intro hcon
    exact hne pc (List.mem_cons_self _ _) hcon.1.symm

theorem rat_floor_natCast (n : ℕ) : ((n : ℚ)).floor = (n : ℤ) := by
  rw [Rat.floor_def']
  simp

theorem pixel_calculator_col (x h : ℕ) (anchors : List Anchor) (m : ℕ) :
    ∀ pc ∈ pixel_calculator x h anchors m, rat_as_u32 pc.1.x = x := by
  intro pc hpc
  unfold pixel_calculator at hpc
  rw [List.mem_filterMap] at hpc
  obtain ⟨y, _, hmap⟩ := hpc
  cases hca : closest_anchor ⟨(x : ℚ), (y : ℚ)⟩ (filtered_anchors x anchors m) m with
  | none => rw [hca] at hmap; exact absurd hmap (by simp)
  | some a =>
    rw [hca] at hmap
    simp only [Option.map_some', Option.some.injEq] at hmap
    rw [← hmap]
    simp [rat_as_u32, rat_floor_natCast]

theorem pixel_calculator_empty (x h : ℕ) (anchors : List Anchor) (m : ℕ)
    (hf : filtered_anchors x anchors m = []) : pixel_calculator x h anchors m = [] := by
  unfold pixel_calculator
  rw [hf]
  simp [closest_anchor, closest_anchor_go]

/-- C9: for every pixel whose filtered anchor window is empty, the per-pixel
scan returns no anchor (`closest_anchor` yields `none`), the column worker
emits no result for that pixel, and the pixel of the rendered buffer stays at
the transparent initialization value; this is a normal return, not an error. -/
theorem empty_filter_pixel_transparent (w h x y : ℕ) (anchors : List Anchor) (m : ℕ)
    (hf : filtered_anchors x anchors m = []) :
    closest_anchor ⟨(x : ℚ), (y : ℚ)⟩ (filtered_anchors x anchors m) m = none ∧
    pixel_calculator x h anchors m = [] ∧
    voronoi_raster_banded w h anchors m x y = transparent := by
  refine ⟨?_, pixel_calculator_empty x h anchors m hf, ?_⟩
  · rw [hf]
    rfl
  · unfold voronoi_raster_banded
    rw [banded_writes_eq_sequential]
    rw [apply_writes_not_mem _ _ x y ?_]
    intro pc hpc
    unfold sequential_writes at hpc
    rw [List.mem_flatMap] at hpc
    obtain ⟨x', _, hpc⟩ := hpc
    by_cases hxx : x' = x
    · subst hxx
      rw [pixel_calculator_empty x' h anchors m hf] at hpc
      exact absurd hpc (List.not_mem_nil _)
    · rw [pixel_calculator_col x' h anchors m pc hpc]
      exact hxx

/-- Witness for C9: a single anchor at column 50 with window half-width 3 is
invisible to column 0, which stays transparent. -/
theorem empty_filter_pixel_transparent_witness :
    closest_anchor ⟨((0 : ℕ) : ℚ), ((0 : ℕ) : ℚ)⟩
      (filtered_anchors 0 [⟨⟨50, 5⟩, ⟨9, 9, 9, 255⟩⟩] 3) 3 = none ∧
    pixel_calculator 0 2 [⟨⟨50, 5⟩, ⟨9, 9, 9, 255⟩⟩] 3 = [] ∧
    voronoi_raster_banded 2 2 [⟨⟨50, 5⟩, ⟨9, 9, 9, 255⟩⟩] 3 0 0 = transparent :=
  empty_filter_pixel_transparent 2 2 0 0 [⟨⟨50, 5⟩, ⟨9, 9, 9, 255⟩⟩] 3
    (by norm_num [filtered_anchors, List.filter])

theorem square_tiles_length (w h s : ℕ) (col : ℕ → ℕ → Rgba) :
    (square_tiles w h s col).length = ceil_div w s * ceil_div h s := by
  unfold square_tiles
  rw [List.length_flatMap]
  have hmap : List.map (List.length ∘ fun i => (List.range (ceil_div h s)).map fun j =>
        (⟨i, j, ((i * s : ℕ) : ℤ), ((j * s : ℕ) : ℤ), s, s, col i j⟩ : SqTile))
      (List.range (ceil_div w s)) =
      List.replicate (ceil_div w s) (ceil_div h s) := by
    have h1 : List.map (List.length ∘ fun i => (List.range (ceil_div h s)).map fun j =>
          (⟨i, j, ((i * s : ℕ) : ℤ), ((j * s : ℕ) : ℤ), s, s, col i j⟩ : SqTile))
        (List.range (ceil_div w s)) =
        List.map (fun _ => ceil_div h s) (List.range (ceil_div w s)) :=
      List.map_congr_left fun i _ => by simp [Function.comp]
    rw [h1, List.map_const', List.length_range]
  rw [hmap, List.sum_replicate, smul_eq_mul]

theorem square_tiles_mem (w h s : ℕ) (col : ℕ → ℕ → Rgba) (t : SqTile) :
    t ∈ square_tiles w h s col ↔ ∃ i, i < ceil_div w s ∧ ∃ j, j < ceil_div h s ∧
      t = ⟨i, j, ((i * s : ℕ) : ℤ), ((j * s : ℕ) : ℤ), s, s, col i j⟩ := by
  unfold square_tiles
  rw [List.mem_flatMap]
  constructor
  · rintro ⟨i, hi, hmem⟩
    rw [List.mem_map] at hmem
    obtain ⟨j, hj, hteq⟩ := hmem
    rw [List.mem_range] at hi hj
    exact ⟨i, hi, j, hj, hteq.symm⟩
  · rintro ⟨i, hi, j, hj, hteq⟩
    exact ⟨i, List.mem_range.2 hi, List.mem_map.2 ⟨j, List.mem_range.2 hj, hteq.symm⟩⟩

theorem paint_not_covered (W H : ℕ) : ∀ (l : List SqTile) (buf : ℕ → ℕ → Rgba) (px py : ℕ),
    (∀ t ∈ l, ¬ tile_covers W H t px py) →
    (l.foldl (fun b t => draw_filled_rect W H t b) buf) px py = buf px py := by
  intro l
  induction l with
  | nil => intro buf px py _; rfl
  | cons t rest ih =>
    intro buf px py hnc
    show (rest.foldl _ (draw_filled_rect W H t buf)) px py = buf px py
    rw [ih _ px py fun q hq => hnc q (List.mem_cons_of_mem _ hq)]
    unfold draw_filled_rect
    rw [if_neg (hnc t (List.mem_cons_self _ _))]

theorem paint_covered_unique (W H : ℕ) (c : Rgba) :
    ∀ (l : List SqTile) (buf : ℕ → ℕ → Rgba) (px py : ℕ),
      (∃ t ∈ l, tile_covers W H t px py) →
      (∀ t ∈ l, tile_covers W H t px py → t.color = c) →
      (l.foldl (fun b t => draw_filled_rect W H t b) buf) px py = c := by
  intro l
  induction l with
  | nil =>
    intro buf px py hex _
    rcases hex with ⟨t, ht, _⟩
    exact absurd ht (List.not_mem_nil t)
  | cons t rest ih =>
    intro buf px py hex hall
    show (rest.foldl _ (draw_filled_rect W H t buf)) px py = c
    by_cases hrest : ∃ q ∈ rest, tile_covers W H q px py
    · exact ih _ px py hrest fun q hq hc => hall q (List.mem_cons_of_mem _ hq) hc
    · push_neg at hrest
      rw [paint_not_covered W H rest _ px py hrest]
      rcases hex with ⟨t0, ht0, hc0⟩
      rcases List.mem_cons.1 ht0 with heq | hmem
      · subst heq
        unfold draw_filled_rect
        rw [if_pos hc0]
        exact hall t0 (List.mem_cons_self _ _) hc0
      · exact absurd hc0 (hrest t0 hmem)

theorem div_lt_ceil_div (s w x : ℕ) (hs : 0 < s) (hx : x < w) : x / s < ceil_div w s := by
  unfold ceil_div
  have h1 : w + s - 1 = (w - 1) + s := by omega
  rw [h1, Nat.add_div_right _ hs]
  have h2 : x / s ≤ (w - 1) / s := Nat.div_le_div_right (by omega)
  omega

theorem div_tile_covers (w h s : ℕ) (hs : 0 < s) (x y : ℕ) (hx : x < w) (hy : y < h)
    (c : Rgba) :
    tile_covers w h ⟨x / s, y / s, ((x / s * s : ℕ) : ℤ), ((y / s * s : ℕ) : ℤ), s, s, c⟩
      x y := by
  have hxl : x / s * s ≤ x := Nat.div_mul_le_self x s
  have hxr : x < (x / s + 1) * s := (Nat.div_lt_iff_lt_mul hs).1 (Nat.lt_succ_self _)
  have hyl : y / s * s ≤ y := Nat.div_mul_le_self y s
  have hyr : y < (y / s + 1) * s := (Nat.div_lt_iff_lt_mul hs).1 (Nat.lt_succ_self _)
  have hxr' : x < x / s * s + s := by
    have : (x / s + 1) * s = x / s * s + s := by ring
    omega
  have hyr' : y < y / s * s + s := by
    have : (y / s + 1) * s = y / s * s + s := by ring
    omega
  simp only [tile_covers]
  refine ⟨?_, ?_, ?_, ?_, hx, hy⟩
  · exact_mod_cast hxl
  · exact_mod_cast hxr'
  · exact_mod_cast hyl
  · exact_mod_cast hyr'

theorem covers_index_eq (w h s : ℕ) (hs : 0 < s) (i j x y : ℕ) (c : Rgba)
    (hcov : tile_covers w h ⟨i, j, ((i * s : ℕ) : ℤ), ((j * s : ℕ) : ℤ), s, s, c⟩ x y) :
    i = x / s ∧ j = y / s := by
  simp only [tile_covers] at hcov
  obtain ⟨h1, h2, h3, h4, _, _⟩ := hcov
  have h1' : i * s ≤ x := by exact_mod_cast h1
  have h2' : x < i * s + s := by exact_mod_cast h2
  have h3' : j * s ≤ y := by exact_mod_cast h3
  have h4' : y < j * s + s := by exact_mod_cast h4
  constructor
  · have hle : i ≤ x / s := (Nat.le_div_iff_mul_le hs).2 h1'
    have hlt : x / s < i + 1 := (Nat.div_lt_iff_lt_mul hs).2 (by
      have : (i + 1) * s = i * s + s := by ring
      omega)
    omega
  · have hle : j ≤ y / s := (Nat.le_div_iff_mul_le hs).2 h3'
    have hlt : y / s < j + 1 := (Nat.div_lt_iff_lt_mul hs).2 (by
      have : (j + 1) * s = j * s + s := by ring
      omega)
    omega

/-- C8: for positive `size`, `generate_square_pattern` draws exactly
`ceil(width/size) * ceil(height/size)` tiles; every drawn tile `(i, j)` is an
axis-aligned `size` by `size` rectangle with top-left corner
`(i*size, j*size)`; after clipping by the draw primitive, every canvas pixel
`(x, y)` carries the color of tile `(x/size, y/size)`, so tile `(i, j)` covers
exactly `[i*size, (i+1)*size) x [j*size, (j+1)*size)` clipped to the canvas;
and for `width = height = 100`, `size = 20` exactly 25 tiles are drawn. -/
theorem generate_square_pattern_tiles (w h s : ℕ) (col : ℕ → ℕ → Rgba) (hs : 0 < s) :
    (square_tiles w h s col).length = ceil_div w s * ceil_div h s ∧
    (∀ t ∈ square_tiles w h s col,
      t.x = ((t.i * s : ℕ) : ℤ) ∧ t.y = ((t.j * s : ℕ) : ℤ) ∧ t.w = s ∧ t.h = s ∧
      t.i < ceil_div w s ∧ t.j < ceil_div h s) ∧
    (∀ x y, x < w → y < h →
      generate_square_pattern w h s col x y = col (x / s) (y / s)) ∧
    (square_tiles 100 100 20 col).length = 25 := by
  refine ⟨square_tiles_length w h s col, ?_, ?_, ?_⟩
  · intro t ht
    rw [square_tiles_mem] at ht
    obtain ⟨i, hi, j, hj, rfl⟩ := ht
    exact ⟨rfl, rfl, rfl, rfl, hi, hj⟩
  · intro x y hx hy
    unfold generate_square_pattern
    refine paint_covered_unique w h (col (x / s) (y / s)) (square_tiles w h s col) _ x y
      ⟨⟨x / s, y / s, ((x / s * s : ℕ) : ℤ), ((y / s * s : ℕ) : ℤ), s, s,
        col (x / s) (y / s)⟩, ?_, div_tile_covers w h s hs x y hx hy _⟩ ?_
    · exact (square_tiles_mem w h s col _).2
        ⟨x / s, div_lt_ceil_div s w x hs hx, y / s, div_lt_ceil_div s h y hs hy, rfl⟩
    · intro t ht hc
      rw [square_tiles_mem] at ht
      obtain ⟨i, hi, j, hj, rfl⟩ := ht
      obtain ⟨hieq, hjeq⟩ := covers_index_eq w h s hs i j x y _ hc
      rw [hieq, hjeq]
  · rw [square_tiles_length]
    norm_num [ceil_div]

/-- Witness for C8 at the spec's concrete instance. -/
theorem generate_square_pattern_tiles_witness :
    (square_tiles 100 100 20 (fun _ _ => transparent)).length = 25 :=
  (generate_square_pattern_tiles 100 100 20 (fun _ _ => transparent) (by norm_num)).2.2.2

theorem anchor_loop_nil (rp_fuel : ℕ) (ds : ℕ → Draw) (dist : Distance) (b : Bounds)
    (sq_min : ℚ) (fuel : ℕ) (acc : List Point) (i : ℕ) :
    anchor_loop rp_fuel ds dist b sq_min (fuel + 1) [] acc i = some acc := rfl

theorem anchor_loop_accept (rp_fuel : ℕ) (ds : ℕ → Draw) (dist : Distance) (b : Bounds)
    (sq_min : ℚ) (fuel : ℕ) (c : Point) (rest acc : List Point) (i : ℕ)
    (cs : List Point) (j : ℕ)
    (hv : is_valid_anchor sq_min acc c = true)
    (hg : generate_anchor_candidates rp_fuel ds i c dist b = some (cs, j)) :
    anchor_loop rp_fuel ds dist b sq_min (fuel + 1) (c :: rest) acc i =
      anchor_loop rp_fuel ds dist b sq_min fuel (rest ++ cs) (acc ++ [c]) j := by
  simp only [anchor_loop, hv, hg, if_true]

theorem anchor_loop_reject (rp_fuel : ℕ) (ds : ℕ → Draw) (dist : Distance) (b : Bounds)
    (sq_min : ℚ) (fuel : ℕ) (c : Point) (rest acc : List Point) (i : ℕ)
    (hv : is_valid_anchor sq_min acc c = false) :
    anchor_loop rp_fuel ds dist b sq_min (fuel + 1) (c :: rest) acc i =
      anchor_loop rp_fuel ds dist b sq_min fuel rest acc i := by
  simp only [anchor_loop, hv, Bool.false_eq_true, if_false]

theorem anchor_loop_reject_rep (rp_fuel : ℕ) (ds : ℕ → Draw) (dist : Distance) (b : Bounds)
    (sq_min : ℚ) (c : Point) (acc : List Point)
    (hv : is_valid_anchor sq_min acc c = false) :
    ∀ (k fuel : ℕ) (q : List Point) (i : ℕ),
      anchor_loop rp_fuel ds dist b sq_min (fuel + k) (List.replicate k c ++ q) acc i =
        anchor_loop rp_fuel ds dist b sq_min fuel q acc i := by
  intro k
  induction k with
  | zero => intro fuel q i; rfl
  | succ k ih =>
    intro fuel q i
    have h1 : fuel + (k + 1) = (fuel + k) + 1 := rfl
    rw [h1, List.replicate_succ, List.cons_append,
      anchor_loop_reject rp_fuel ds dist b sq_min (fuel + k) c _ acc i hv, ih]

theorem anchor_loop_pairwise (rp_fuel : ℕ) (ds : ℕ → Draw) (dist : Distance) (b : Bounds)
    (sq_min : ℚ) :
    ∀ (fuel : ℕ) (queue acc : List Point) (i : ℕ) (L : List Point),
      acc.Pairwise (fun p q => sq_min ≤ squared_distance_from p q) →
      anchor_loop rp_fuel ds dist b sq_min fuel queue acc i = some L →
      L.Pairwise (fun p q => sq_min ≤ squared_distance_from p q) := by
  intro fuel
  induction fuel with
  | zero =>
    intro queue acc i L hacc h
    exact absurd h (by simp [anchor_loop])
  | succ fuel ih =>
    intro queue acc i L hacc h
    cases queue with
    | nil =>
      rw [anchor_loop_nil] at h
      cases h
      exact hacc
    | cons c rest =>
      simp only [anchor_loop] at h
      split at h
      · rename_i hv
        split at h
        · exact absurd h (by simp)
        · rename_i cs j hg
          have hvalid : ∀ a ∈ acc, sq_min ≤ squared_distance_from a c := by
            unfold is_valid_anchor at hv
            intro a ha
            have hb := List.all_eq_true.1 hv a ha
            simp only [Bool.not_eq_true'] at hb
            rw [decide_eq_false_iff_not] at hb
            exact not_lt.1 hb
          have hacc' : (acc ++ [c]).Pairwise
              (fun p q => sq_min ≤ squared_distance_from p q) := by
            rw [List.pairwise_append]
            refine ⟨hacc, List.pairwise_singleton _ _, fun a ha d hd => ?_⟩
            rw [List.mem_singleton] at hd
            subst hd
            exact hvalid a ha
          exact ih (rest ++ cs) (acc ++ [c]) j L hacc' h
      · exact ih rest acc i L hacc h

/-- C1 amended: for every `Bounds`, random stream and fuel, and every
`minimumDistance` whose square does not overflow `u32`
(`minimumDistance² < 2^32`), every list returned by `generate_anchor_points`
is pairwise separated: any two points of it have squared distance at least
`minimumDistance²` (equivalently, Euclidean distance at least
`minimumDistance`); the separation is an invariant preserved by every
acceptance step of the frontier loop (`anchor_loop_pairwise`). -/
theorem generate_anchor_points_pairwise_separated (fuel rp_fuel : ℕ) (ds : ℕ → Draw)
    (u₁ u₂ : ℚ) (bounds : Bounds) (minimum_distance : ℕ) (L : List Point)
    (hm : minimum_distance * minimum_distance < U32SIZE)
    (hL : generate_anchor_points fuel rp_fuel ds u₁ u₂ bounds minimum_distance = some L) :
    L.Pairwise
      (fun p q => ((minimum_distance : ℚ)) ^ 2 ≤ squared_distance_from p q) := by
  simp only [generate_anchor_points] at hL
  split at hL
  · exact absurd hL (by simp)
  · rename_i cs i hg
    have hmod : minimum_distance * minimum_distance % U32SIZE =
        minimum_distance * minimum_distance := Nat.mod_eq_of_lt hm
    rw [hmod] at hL
    have hcast : ((minimum_distance * minimum_distance : ℕ) : ℚ) =
        ((minimum_distance : ℚ)) ^ 2 := by
      push_cast
      ring
    rw [hcast] at hL
    exact anchor_loop_pairwise rp_fuel ds _ bounds _ fuel cs _ i L
      (List.pairwise_singleton _ _) hL

theorem gac_over_seed :
    generate_anchor_candidates 1 dsOver 0 ⟨200000, 200000⟩ ⟨65537, 131074⟩
      ⟨1000000, 1000000⟩ =
      some (⟨265537, 200000⟩ :: ⟨1196611 / 5, 1262148 / 5⟩ ::
        List.replicate 23 ⟨265637, 200000⟩, 25) := by
  norm_num [generate_anchor_candidates, generate_anchor_candidates_go,
    random_point_at_certain_distance, dsOver, strictly_in_bounds, u32Sub, U32SIZE,
    List.replicate]

theorem gac_over_c1 :
    generate_anchor_candidates 1 dsOver 25 ⟨265537, 200000⟩ ⟨65537, 131074⟩
      ⟨1000000, 1000000⟩ =
      some (List.replicate 25 ⟨200000, 200000⟩, 50) := by
  norm_num [generate_anchor_candidates, generate_anchor_candidates_go,
    random_point_at_certain_distance, dsOver, strictly_in_bounds, u32Sub, U32SIZE,
    List.replicate]

theorem gac_over_c2 :
    generate_anchor_candidates 1 dsOver 50 ⟨1196611 / 5, 1262148 / 5⟩ ⟨65537, 131074⟩
      ⟨1000000, 1000000⟩ =
      some (List.replicate 25 ⟨200000, 200000⟩, 75) := by
  norm_num [generate_anchor_candidates, generate_anchor_candidates_go,
    random_point_at_certain_distance, dsOver, strictly_in_bounds, u32Sub, U32SIZE,
    List.replicate]

theorem hv_over_c1 :
    is_valid_anchor (131073 : ℚ) [⟨200000, 200000⟩] ⟨265537, 200000⟩ = true := by
  norm_num [is_valid_anchor, squared_distance_from]

theorem hv_over_c2 :
    is_valid_anchor (131073 : ℚ) [⟨200000, 200000⟩, ⟨265537, 200000⟩]
      ⟨1196611 / 5, 1262148 / 5⟩ = true := by
  norm_num [is_valid_anchor, squared_distance_from]

theorem hv_over_cr :
    is_valid_anchor (131073 : ℚ)
      [⟨200000, 200000⟩, ⟨265537, 200000⟩, ⟨1196611 / 5, 1262148 / 5⟩]
      ⟨265637, 200000⟩ = false := by
  norm_num [is_valid_anchor, squared_distance_from]

theorem hv_over_s :
    is_valid_anchor (131073 : ℚ)
      [⟨200000, 200000⟩, ⟨265537, 200000⟩, ⟨1196611 / 5, 1262148 / 5⟩]
      ⟨200000, 200000⟩ = false := by
  norm_num [is_valid_anchor, squared_distance_from]

theorem gap_over_run :
    generate_anchor_points 100 1 dsOver (1 / 5) (1 / 5) ⟨1000000, 1000000⟩ 65537 =
      some [sOver, c1Over, c2Over] := by
  have e0 : generate_anchor_points 100 1 dsOver (1 / 5) (1 / 5) ⟨1000000, 1000000⟩ 65537 =
      anchor_loop 1 dsOver ⟨65537, 131074⟩ ⟨1000000, 1000000⟩ (131073 : ℚ) 100
        (⟨265537, 200000⟩ :: ⟨1196611 / 5, 1262148 / 5⟩ ::
          List.replicate 23 ⟨265637, 200000⟩) [⟨200000, 200000⟩] 25 := by
    simp only [generate_anchor_points]
    norm_num [U32SIZE, gac_over_seed]
  rw [e0]
  rw [show (100 : ℕ) = 99 + 1 by norm_num]
  rw [anchor_loop_accept 1 dsOver ⟨65537, 131074⟩ ⟨1000000, 1000000⟩ (131073 : ℚ) 99
    ⟨265537, 200000⟩ _ _ 25 (List.replicate 25 ⟨200000, 200000⟩) 50 hv_over_c1 gac_over_c1]
  simp only [List.cons_append, List.nil_append]
  rw [show (99 : ℕ) = 98 + 1 by norm_num]
  rw [anchor_loop_accept 1 dsOver ⟨65537, 131074⟩ ⟨1000000, 1000000⟩ (131073 : ℚ) 98
    ⟨1196611 / 5, 1262148 / 5⟩ _ _ 50 (List.replicate 25 ⟨200000, 200000⟩) 75
    hv_over_c2 gac_over_c2]
  simp only [List.cons_append, List.nil_append, List.append_assoc]
  rw [← List.replicate_add]
  rw [show (25 + 25 : ℕ) = 50 by norm_num]
  rw [show (98 : ℕ) = 75 + 23 by norm_num]
  rw [anchor_loop_reject_rep 1 dsOver ⟨65537, 131074⟩ ⟨1000000, 1000000⟩ (131073 : ℚ)
    ⟨265637, 200000⟩ _ hv_over_cr 23 75 _ _]
  rw [show (List.replicate 50 (⟨200000, 200000⟩ : Point)) =
    List.replicate 50 ⟨200000, 200000⟩ ++ [] from (List.append_nil _).symm]
  rw [show (75 : ℕ) = 25 + 50 by norm_num]
  rw [anchor_loop_reject_rep 1 dsOver ⟨65537, 131074⟩ ⟨1000000, 1000000⟩ (131073 : ℚ)
    ⟨200000, 200000⟩ _ hv_over_s 50 25 [] _]
  rw [show (25 : ℕ) = 24 + 1 by norm_num]
  rw [anchor_loop_nil]
  norm_num [sOver, c1Over, c2Over]

/-- C1 counterexample: at `minimumDistance = 65537` the `u32` squaring
`minimum_distance * minimum_distance` wraps to `131073`, the separation test
compares against the wrapped value, and a run over rng draws the real
generator can produce returns the anchor list `[sOver, c1Over, c2Over]` whose
pair `c1Over`, `c2Over` has squared distance `(4/5) * 65537²`, strictly less
than `65537²`: the returned list is not pairwise separated by
`minimumDistance`. -/
theorem generate_anchor_points_overflow_violation :
    generate_anchor_points 100 1 dsOver (1 / 5) (1 / 5) ⟨1000000, 1000000⟩ 65537 =
      some [sOver, c1Over, c2Over] ∧
    ¬ ([sOver, c1Over, c2Over].Pairwise
        (fun p q => ((65537 : ℕ) : ℚ) ^ 2 ≤ squared_distance_from p q)) := by
  refine ⟨gap_over_run, ?_⟩
  intro hp
  have h12 : ((65537 : ℕ) : ℚ) ^ 2 ≤ squared_distance_from c1Over c2Over :=
    (List.pairwise_cons.1 (List.pairwise_cons.1 hp).2).1 c2Over
      (List.mem_cons_self _ _)
  have hlt : squared_distance_from c1Over c2Over < ((65537 : ℕ) : ℚ) ^ 2 := by
    norm_num [c1Over, c2Over, squared_distance_from]
  exact absurd h12 (not_le.2 hlt)

theorem gac_ones_run :
    generate_anchor_candidates 1 dsZero 0 ⟨5, 5⟩ ⟨1, 2⟩ ⟨10, 10⟩ =
      some (List.replicate 25 ⟨5, 5⟩, 25) := by
  norm_num [generate_anchor_candidates, generate_anchor_candidates_go,
    random_point_at_certain_distance, dsZero, strictly_in_bounds, u32Sub, U32SIZE,
    List.replicate]

theorem hv_ones :
    is_valid_anchor (1 : ℚ) [⟨5, 5⟩] ⟨5, 5⟩ = false := by
  norm_num [is_valid_anchor, squared_distance_from]

theorem gap_ones_run :
    generate_anchor_points 30 1 dsZero (1 / 2) (1 / 2) ⟨10, 10⟩ 1 = some [⟨5, 5⟩] := by
  have e0 : generate_anchor_points 30 1 dsZero (1 / 2) (1 / 2) ⟨10, 10⟩ 1 =
      anchor_loop 1 dsZero ⟨1, 2⟩ ⟨10, 10⟩ (1 : ℚ) 30
        (List.replicate 25 ⟨5, 5⟩) [⟨5, 5⟩] 25 := by
    simp only [generate_anchor_points]
    norm_num [U32SIZE, gac_ones_run]
  rw [e0]
  rw [show (List.replicate 25 (⟨5, 5⟩ : Point)) =
    List.replicate 25 ⟨5, 5⟩ ++ [] from (List.append_nil _).symm]
  rw [show (30 : ℕ) = 5 + 25 by norm_num]
  rw [anchor_loop_reject_rep 1 dsZero ⟨1, 2⟩ ⟨10, 10⟩ (1 : ℚ) ⟨5, 5⟩ _ hv_ones 25 5 [] _]
  rw [show (5 : ℕ) = 4 + 1 by norm_num]
  rw [anchor_loop_nil]

/-- Witness for C1's amended theorem: a terminating run at
`minimumDistance = 1` returns the singleton seed list, which is pairwise
separated. -/
theorem generate_anchor_points_pairwise_separated_witness :
    ([(⟨5, 5⟩ : Point)]).Pairwise
      (fun p q => ((1 : ℕ) : ℚ) ^ 2 ≤ squared_distance_from p q) :=
  generate_anchor_points_pairwise_separated 30 1 dsZero (1 / 2) (1 / 2) ⟨10, 10⟩ 1
    [⟨5, 5⟩] (by norm_num [U32SIZE]) gap_ones_run

theorem is_valid_anchor_zero (acc : List Point) (c : Point) :
    is_valid_anchor 0 acc c = true := by
  unfold is_valid_anchor
  rw [List.all_eq_true]
  intro a ha
  simp only [Bool.not_eq_true']
  rw [decide_eq_false_iff_not]
  refine not_lt.2 ?_
  unfold squared_distance_from
  positivity

theorem anchor_loop_zero_dist_none (rp_fuel : ℕ) (ds : ℕ → Draw) (b : Bounds) :
    ∀ (fuel : ℕ) (queue acc : List Point) (i : ℕ), queue ≠ [] →
      anchor_loop rp_fuel ds ⟨0, 0⟩ b 0 fuel queue acc i = none := by
  intro fuel
  induction fuel with
  | zero => intro queue acc i _; rfl
  | succ fuel ih =>
    intro queue acc i hne
    cases queue with
    | nil => exact absurd rfl hne
    | cons c rest =>
      simp only [anchor_loop, is_valid_anchor_zero, if_true]
      cases hg : generate_anchor_candidates rp_fuel ds i c ⟨0, 0⟩ b with
      | none => rfl
      | some csj =>
        obtain ⟨cs, j⟩ := csj
        show anchor_loop rp_fuel ds ⟨0, 0⟩ b 0 fuel (rest ++ cs) (acc ++ [c]) j = none
        apply ih
        have hlen := generate_anchor_candidates_go_length rp_fuel ds ⟨0, 0⟩ b c 25 i cs j hg
        intro hcon
        rw [List.append_eq_nil] at hcon
        rw [hcon.2] at hlen
        simp at hlen

/-- C10: the voronoi-random generator sets `minimumDistance = pattern_size / 2`
with integer division, so `pattern_size ≤ 1` gives minimum distance 0; then
the squared-distance test `d < 0` never rejects (every popped candidate is
accepted and enqueues 25 fresh candidates, so the frontier queue never
empties), and `generate_anchor_points` diverges: it returns `none` for every
fuel, every rng stream and every bounds. -/
theorem voronoi_small_pattern_nonterminating (pattern_size : ℕ)
    (hps : pattern_size ≤ 1) :
    voronoi_minimum_distance pattern_size = 0 ∧
    ∀ (fuel rp_fuel : ℕ) (ds : ℕ → Draw) (u₁ u₂ : ℚ) (bounds : Bounds),
      generate_anchor_points fuel rp_fuel ds u₁ u₂ bounds
        (voronoi_minimum_distance pattern_size) = none := by
  have hmd : voronoi_minimum_distance pattern_size = 0 := by
    unfold voronoi_minimum_distance
    omega
  refine ⟨hmd, ?_⟩
  intro fuel rp_fuel ds u₁ u₂ bounds
  rw [hmd]
  simp only [generate_anchor_points]
  have hd : (⟨0, 0 * 2 % U32SIZE⟩ : Distance) = ⟨0, 0⟩ := by norm_num
  have hsq : ((0 * 0 % U32SIZE : ℕ) : ℚ) = 0 := by norm_num
  rw [hd, hsq]
  cases hg : generate_anchor_candidates rp_fuel ds 0
      ⟨u₁ * (bounds.width : ℚ), u₂ * (bounds.height : ℚ)⟩ ⟨0, 0⟩ bounds with
  | none => rfl
  | some csi =>
    obtain ⟨cs, i⟩ := csi
    show anchor_loop rp_fuel ds ⟨0, 0⟩ bounds 0 fuel cs
      [⟨u₁ * (bounds.width : ℚ), u₂ * (bounds.height : ℚ)⟩] i = none
    apply anchor_loop_zero_dist_none
    have hlen := generate_anchor_candidates_go_length rp_fuel ds ⟨0, 0⟩ bounds _ 25 0 cs i hg
    intro hcon
    rw [hcon] at hlen
    simp at hlen

/-- Witness for C10 at `pattern_size = 1` on a concrete stream and bounds. -/
theorem voronoi_small_pattern_nonterminating_witness :
    generate_anchor_points 5 1 dsZeroTen (1 / 2) (1 / 2) ⟨10, 10⟩
      (voronoi_minimum_distance 1) = none :=
  (voronoi_small_pattern_nonterminating 1 (by norm_num)).2 5 1 dsZeroTen (1 / 2) (1 / 2)
    ⟨10, 10⟩
